import Mathlib

/-!
Verification of the `quickfib` fast-doubling Fibonacci crate
(`src/lib.rs`).

The crate exposes two generic functions:

* `fibbonacci<T>(n: T) -> T` — computes the n-th Fibonacci number with
  the fast-doubling identities, through an internal recursive helper
  `__fib<T>(n: T) -> (T, T)` returning the pair `(F(n), F(n+1))`;
* `fibbonacci_range<T, U>(range: T) -> Vec<U>` — maps `fibbonacci`
  over any iterator of indices, pushing results in order.

We embed the exact (no-overflow) behaviour over `Nat` — arbitrary
precision models any `T` wide enough to hold the result — and, for the
wraparound analysis, a second embedding `fibWrapPair` over the residues
modulo `2^w`, mirroring the wrapping arithmetic of a `w`-bit unsigned
integer type.
-/

namespace Quickfib

/-- Embedding of the internal helper `__fib<T>` of `src/lib.rs`
(lines 33–56), over `Nat`:
`if n == 0 { (0, 1) } else { let (a,b) = __fib(n/2);
 let c = a*((b*2) - a); let d = a*a + b*b;
 if n % 2 == 0 { (c, d) } else { (d, c + d) } }`. -/
def fibPair (n : Nat) : Nat × Nat :=
  if n = 0 then (0, 1)
  else
    let p := fibPair (n / 2)
    let a := p.1
    let b := p.2
    let c := a * (b * 2 - a)
    let d := a * a + b * b
    if n % 2 = 0 then (c, d) else (d, c + d)
decreasing_by omega

/-- Embedding of `fibbonacci<T>` of `src/lib.rs` (lines 22–59):
`__fib(n).0`. -/
def fibbonacci (n : Nat) : Nat := (fibPair n).1

/-- Embedding of `fibbonacci_range<T, U>` of `src/lib.rs`
(lines 71–88): iterate over the input, pushing `fibbonacci i` onto a
growing vector. -/
def fibbonacci_range (l : List Nat) : List Nat :=
  l.foldl (fun result i => result ++ [fibbonacci i]) []

/-- Number of invocations of the helper `__fib` performed by
`fibbonacci n`: the call on `n` itself plus the calls triggered
recursively on `n / 2`, mirroring `src/lib.rs` lines 44–55. -/
def fibCalls (n : Nat) : Nat :=
  if n = 0 then 1 else fibCalls (n / 2) + 1
decreasing_by omega

/-- Wrapping addition of a `w`-bit unsigned integer type, `M = 2^w`. -/
def wadd (M x y : Nat) : Nat := (x + y) % M

/-- Wrapping subtraction of a `w`-bit unsigned integer type: for
`x, y < M` this is `x - y` modulo `M = 2^w`. -/
def wsub (M x y : Nat) : Nat := (x + M - y) % M

/-- Wrapping multiplication of a `w`-bit unsigned integer type. -/
def wmul (M x y : Nat) : Nat := (x * y) % M

/-- Embedding of the helper `__fib<T>` of `src/lib.rs` (lines 33–56)
instantiated at a `w`-bit unsigned integer type with wraparound
arithmetic: every ring operation is reduced modulo `M = 2^w`, and the
literals `0`, `1`, `2` produced by `T::from` are their residues.  The
index arithmetic `n / 2` and `n % 2` is exact, as it is in the type for
any representable index. -/
def fibWrapPair (w : Nat) (n : Nat) : Nat × Nat :=
  let M := 2 ^ w
  if n = 0 then (0 % M, 1 % M)
  else
    let p := fibWrapPair w (n / 2)
    let a := p.1
    let b := p.2
    let c := wmul M a (wsub M (wmul M b (2 % M)) a)
    let d := wadd M (wmul M a a) (wmul M b b)
    if n % 2 = 0 then (c, d) else (d, wadd M c d)
decreasing_by omega

/-- Embedding of `fibbonacci<T>` at a `w`-bit unsigned integer type
with wraparound arithmetic. -/
def fibbonacciWrap (w n : Nat) : Nat := (fibWrapPair w n).1

/-- The helper returns the pair `(F(n), F(n+1))`. -/
theorem fibPair_eq (n : Nat) :
    fibPair n = (Nat.fib n, Nat.fib (n + 1)) := by
  induction n using Nat.strong_induction_on with
  | _ n ih =>
    rw [fibPair]
    by_cases h0 : n = 0
    · simp [h0]
    · simp only [h0, if_false]
      rw [ih (n / 2) (Nat.div_lt_self (Nat.pos_of_ne_zero h0) one_lt_two)]
      dsimp only
      have hc : Nat.fib (n / 2) * (Nat.fib (n / 2 + 1) * 2 - Nat.fib (n / 2))
          = Nat.fib (2 * (n / 2)) := by
        rw [Nat.fib_two_mul, Nat.mul_comm (Nat.fib (n / 2 + 1)) 2]
      have hd : Nat.fib (n / 2) * Nat.fib (n / 2) +
          Nat.fib (n / 2 + 1) * Nat.fib (n / 2 + 1)
          = Nat.fib (2 * (n / 2) + 1) := by
        rw [Nat.fib_two_mul_add_one]; ring
      by_cases h2 : n % 2 = 0
      · rw [if_pos h2, hc, hd]
        have hn : 2 * (n / 2) = n := by omega
        rw [hn]
      · rw [if_neg h2, hc, hd]
        have hn : 2 * (n / 2) + 1 = n := by omega
        have hn1 : n + 1 = 2 * (n / 2) + 2 := by omega
        rw [hn1, Nat.fib_add_two, hn]

/-- The top-level function computes the Fibonacci sequence. -/
theorem fibbonacci_eq_fib : fibbonacci = Nat.fib :=
  funext fun n => by rw [fibbonacci, fibPair_eq]

/-- Pushing images one at a time onto an accumulator is `List.map`. -/
theorem foldl_push_eq_map (f : Nat → Nat) :
    ∀ (l acc : List Nat),
      l.foldl (fun result i => result ++ [f i]) acc = acc ++ l.map f
  | [], acc => by simp
  | i :: l, acc => by
    rw [List.foldl_cons, foldl_push_eq_map f l (acc ++ [f i])]
    simp

/-- `fibbonacci_range` is `fibbonacci` mapped over the input list. -/
theorem fibbonacci_range_eq_map (l : List Nat) :
    fibbonacci_range l = l.map fibbonacci := by
  rw [fibbonacci_range, foldl_push_eq_map]
  simp

/-- C1: for every non-negative index `n` (no overflow: arbitrary
precision `Nat` models any wide-enough `T`), `fibbonacci n` returns the
n-th Fibonacci number, 0-indexed with `F 0 = 0`, `F 1 = 1`. -/
theorem fibbonacci_computes_fib (n : Nat) : fibbonacci n = Nat.fib n :=
  congrFun fibbonacci_eq_fib n

/-- C2: the helper `__fib k` returns the pair `(F k, F (k+1))`; its base
case returns `(0, 1)`; with `(a, b) = __fib (k / 2)` the intermediate
`c = a * (2*b - a)` equals `F (2 * (k / 2))` and `d = a*a + b*b` equals
`F (2 * (k / 2) + 1)`, and the result is `(c, d)` for even `k` and
`(d, c + d)` for odd `k`. -/
theorem fibPair_fast_doubling (k : Nat) :
    fibPair 0 = (0, 1) ∧
    fibPair k = (Nat.fib k, Nat.fib (k + 1)) ∧
    (fibPair (k / 2)).1 * ((fibPair (k / 2)).2 * 2 - (fibPair (k / 2)).1)
      = Nat.fib (2 * (k / 2)) ∧
    (fibPair (k / 2)).1 * (fibPair (k / 2)).1
      + (fibPair (k / 2)).2 * (fibPair (k / 2)).2 = Nat.fib (2 * (k / 2) + 1) ∧
    fibPair k =
      (if k % 2 = 0
       then ((fibPair (k / 2)).1 * ((fibPair (k / 2)).2 * 2 - (fibPair (k / 2)).1),
             (fibPair (k / 2)).1 * (fibPair (k / 2)).1
               + (fibPair (k / 2)).2 * (fibPair (k / 2)).2)
       else ((fibPair (k / 2)).1 * (fibPair (k / 2)).1
               + (fibPair (k / 2)).2 * (fibPair (k / 2)).2,
             (fibPair (k / 2)).1 * ((fibPair (k / 2)).2 * 2 - (fibPair (k / 2)).1)
               + ((fibPair (k / 2)).1 * (fibPair (k / 2)).1
                   + (fibPair (k / 2)).2 * (fibPair (k / 2)).2))) := by
  have hcf : Nat.fib (k / 2) * (Nat.fib (k / 2 + 1) * 2 - Nat.fib (k / 2))
      = Nat.fib (2 * (k / 2)) := by
    rw [Nat.fib_two_mul, Nat.mul_comm (Nat.fib (k / 2 + 1)) 2]
  have hdf : Nat.fib (k / 2) * Nat.fib (k / 2)
      + Nat.fib (k / 2 + 1) * Nat.fib (k / 2 + 1) = Nat.fib (2 * (k / 2) + 1) := by
    rw [Nat.fib_two_mul_add_one]; ring
  have hhalf := fibPair_eq (k / 2)
  refine ⟨by rw [fibPair]; rfl, fibPair_eq k, by rw [hhalf]; exact hcf,
    by rw [hhalf]; exact hdf, ?_⟩
  rw [fibPair_eq k, hhalf]
  by_cases h2 : k % 2 = 0
  · rw [if_pos h2]
    dsimp only
    rw [hcf, hdf]
    have hk : 2 * (k / 2) = k := by omega
    rw [hk]
  · rw [if_neg h2]
    dsimp only
    rw [hcf, hdf]
    have hk : 2 * (k / 2) + 1 = k := by omega
    have hk1 : k + 1 = 2 * (k / 2) + 2 := by omega
    rw [hk1, Nat.fib_add_two, hk]

/-- C4: for all `n ≥ 2` (no overflow in the `Nat` model),
`fibbonacci n = fibbonacci (n-1) + fibbonacci (n-2)`. -/
theorem fibbonacci_recurrence (n : Nat) (h : 2 ≤ n) :
    fibbonacci n = fibbonacci (n - 1) + fibbonacci (n - 2) := by
  obtain ⟨m, rfl⟩ : ∃ m, n = m + 2 := ⟨n - 2, by omega⟩
  have h1 : m + 2 - 1 = m + 1 := by omega
  have h2 : m + 2 - 2 = m := by omega
  rw [h1, h2, fibbonacci_eq_fib, Nat.fib_add_two]
  exact Nat.add_comm _ _

/-- C4 witness at `n = 10`. -/
theorem fibbonacci_recurrence_witness :
    2 ≤ 10 ∧ fibbonacci 10 = fibbonacci 9 + fibbonacci 8 :=
  ⟨by decide, fibbonacci_recurrence 10 (by decide)⟩

/-- C7: `fibbonacci` is monotone: `n1 < n2` implies
`fibbonacci n1 ≤ fibbonacci n2`. -/
theorem fibbonacci_monotone (n1 n2 : Nat) (h : n1 < n2) :
    fibbonacci n1 ≤ fibbonacci n2 := by
  rw [fibbonacci_eq_fib]
  exact Nat.fib_mono (Nat.le_of_lt h)

/-- C7 witness at `n1 = 3`, `n2 = 5`. -/
theorem fibbonacci_monotone_witness :
    3 < 5 ∧ fibbonacci 3 ≤ fibbonacci 5 :=
  ⟨by decide, fibbonacci_monotone 3 5 (by decide)⟩

/-- C8: `fibbonacci` is a pure function of its argument: two calls with
equal arguments return equal results. -/
theorem fibbonacci_deterministic (n1 n2 : Nat) (h : n1 = n2) :
    fibbonacci n1 = fibbonacci n2 := by rw [h]

/-- C8 witness at `n = 7`. -/
theorem fibbonacci_deterministic_witness :
    (7 : Nat) = 7 ∧ fibbonacci 7 = fibbonacci 7 :=
  ⟨rfl, fibbonacci_deterministic 7 7 rfl⟩

/-- C3: `fibbonacci_range` preserves length and order: the output has
the input's length and its i-th element is `fibbonacci` of the i-th
input index. -/
theorem fibbonacci_range_pointwise (l : List Nat) :
    (fibbonacci_range l).length = l.length ∧
    ∀ i, i < l.length →
      (fibbonacci_range l).getD i 0 = fibbonacci (l.getD i 0) := by
  rw [fibbonacci_range_eq_map]
  refine ⟨by simp, fun i hi => ?_⟩
  rw [List.getD_eq_getElem _ _ (by simpa using hi), List.getD_eq_getElem _ _ hi]
  simp

/-- C3 witness on the input `[3, 4, 5]` at position `1`. -/
theorem fibbonacci_range_pointwise_witness :
    (fibbonacci_range [3, 4, 5]).length = 3 ∧
    1 < ([3, 4, 5] : List Nat).length ∧
    (fibbonacci_range [3, 4, 5]).getD 1 0
      = fibbonacci (([3, 4, 5] : List Nat).getD 1 0) :=
  ⟨(fibbonacci_range_pointwise [3, 4, 5]).1, by decide,
    (fibbonacci_range_pointwise [3, 4, 5]).2 1 (by decide)⟩

/-- C5: base cases and known values: `fibbonacci 0 = 0` with
`__fib 0 = (0, 1)` returned directly by the base case, `fibbonacci 1 = 1`,
`fibbonacci 2 = 1`, `fibbonacci 20 = 6765`, `fibbonacci 30 = 832040`, and
at a 128-bit type `fibbonacci 100 = 354224848179261915075` (the value
fits: it is below `2^128`). -/
theorem fibbonacci_known_values :
    fibbonacci 0 = 0 ∧ fibPair 0 = (0, 1) ∧ fibbonacci 1 = 1 ∧
    fibbonacci 2 = 1 ∧ fibbonacci 20 = 6765 ∧ fibbonacci 30 = 832040 ∧
    fibbonacci 100 = 354224848179261915075 ∧
    354224848179261915075 < 2 ^ 128 := by
  refine ⟨?_, by rw [fibPair]; rfl, ?_, ?_, ?_, ?_, ?_, by decide⟩ <;>
    rw [fibbonacci_eq_fib] <;> decide

/-- C6: `fibbonacci_range` on the inclusive range 0 through 9 returns
`[0, 1, 1, 2, 3, 5, 8, 13, 21, 34]`. -/
theorem fibbonacci_range_first_ten :
    fibbonacci_range (List.range 10) = [0, 1, 1, 2, 3, 5, 8, 13, 21, 34] := by
  rw [fibbonacci_range_eq_map, fibbonacci_eq_fib]
  decide

/-- Halving a positive number removes exactly one bit. -/
theorem size_div_two (n : Nat) (h : n ≠ 0) :
    Nat.size n = Nat.size (n / 2) + 1 := by
  apply Nat.le_antisymm
  · rw [Nat.size_le, pow_succ]
    have h1 := Nat.lt_size_self (n / 2)
    omega
  · have hup : 2 ^ Nat.size (n / 2) ≤ n := by
      by_cases h2 : n / 2 = 0
      · rw [h2, Nat.size_zero, pow_zero]
        omega
      · have hs : 0 < Nat.size (n / 2) := Nat.size_pos.mpr (Nat.pos_of_ne_zero h2)
        have h3 : 2 ^ (Nat.size (n / 2) - 1) ≤ n / 2 := Nat.lt_size.mp (by omega)
        have h4 : 2 ^ Nat.size (n / 2) = 2 ^ (Nat.size (n / 2) - 1) * 2 := by
          rw [← pow_succ]
          congr 1
          omega
        omega
    have := Nat.lt_size.mpr hup
    omega

/-- The call count is one per bit of `n`, plus the base call. -/
theorem fibCalls_eq_size (n : Nat) : fibCalls n = Nat.size n + 1 := by
  induction n using Nat.strong_induction_on with
  | _ n ih =>
    rw [fibCalls]
    by_cases h0 : n = 0
    · simp [h0, Nat.size_zero]
    · rw [if_neg h0, ih (n / 2) (Nat.div_lt_self (Nat.pos_of_ne_zero h0) one_lt_two),
        size_div_two n h0]

/-- C9: the recursion of `fibbonacci` terminates — `fibPair` and
`fibCalls` are total functions — and performs exactly one helper call
per bit of `n` (`Nat.size n`) plus the base call on 0. -/
theorem fibbonacci_call_count (n : Nat) :
    fibCalls n = Nat.size n + 1 ∧ fibbonacci n = (fibPair n).1 :=
  ⟨fibCalls_eq_size n, rfl⟩

/-- Wrapping addition of residues is addition modulo `M`. -/
theorem wadd_mod (M x y : Nat) : wadd M (x % M) (y % M) = (x + y) % M := by
  show (x % M + y % M) % M = (x + y) % M
  exact (Nat.add_mod x y M).symm

/-- Wrapping multiplication of residues is multiplication modulo `M`. -/
theorem wmul_mod (M x y : Nat) : wmul M (x % M) (y % M) = x * y % M := by
  show x % M * (y % M) % M = x * y % M
  exact (Nat.mul_mod x y M).symm

/-- Wrapping subtraction of residues computes the residue of the true
difference whenever the true difference does not underflow. -/
theorem wsub_mod (M x y : Nat) (hM : 0 < M) (hyx : y ≤ x) :
    wsub M (x % M) (y % M) = (x - y) % M := by
  have hy : y % M < M := Nat.mod_lt y hM
  have hA : x % M + M - y % M + y % M = x % M + M := by omega
  have hB : x - y + y = x := by omega
  have hx : x % M + M ≡ x [MOD M] := by
    show (x % M + M) % M = x % M
    rw [Nat.add_mod_right]
    exact Nat.mod_mod_of_dvd x dvd_rfl
  have hsum : x % M + M - y % M + y % M ≡ x - y + y [MOD M] := by
    rw [hA, hB]
    exact hx
  exact (Nat.mod_modEq y M).add_right_cancel hsum

/-- The fast-doubling identities survive the modular reduction: at a
`w`-bit wrapping type the helper returns the residues of the true
Fibonacci pair. -/
theorem fibWrapPair_eq (w n : Nat) :
    fibWrapPair w n = (Nat.fib n % 2 ^ w, Nat.fib (n + 1) % 2 ^ w) := by
  have hM : 0 < 2 ^ w := Nat.pos_pow_of_pos w (by omega)
  induction n using Nat.strong_induction_on with
  | _ n ih =>
    rw [fibWrapPair]
    by_cases h0 : n = 0
    · simp [h0]
    · simp only [h0, if_false]
      rw [ih (n / 2) (Nat.div_lt_self (Nat.pos_of_ne_zero h0) one_lt_two)]
      dsimp only
      have hfle : Nat.fib (n / 2) ≤ Nat.fib (n / 2 + 1) * 2 := by
        have := @Nat.fib_le_fib_succ (n / 2)
        omega
      have hc : wmul (2 ^ w) (Nat.fib (n / 2) % 2 ^ w)
          (wsub (2 ^ w) (wmul (2 ^ w) (Nat.fib (n / 2 + 1) % 2 ^ w) (2 % 2 ^ w))
            (Nat.fib (n / 2) % 2 ^ w))
          = Nat.fib (2 * (n / 2)) % 2 ^ w := by
        rw [wmul_mod (2 ^ w) (Nat.fib (n / 2 + 1)) 2,
          wsub_mod (2 ^ w) (Nat.fib (n / 2 + 1) * 2) (Nat.fib (n / 2)) hM hfle,
          wmul_mod (2 ^ w) (Nat.fib (n / 2)) (Nat.fib (n / 2 + 1) * 2 - Nat.fib (n / 2)),
          Nat.mul_comm (Nat.fib (n / 2 + 1)) 2, Nat.fib_two_mul]
      have hd : wadd (2 ^ w) (wmul (2 ^ w) (Nat.fib (n / 2) % 2 ^ w) (Nat.fib (n / 2) % 2 ^ w))
          (wmul (2 ^ w) (Nat.fib (n / 2 + 1) % 2 ^ w) (Nat.fib (n / 2 + 1) % 2 ^ w))
          = Nat.fib (2 * (n / 2) + 1) % 2 ^ w := by
        rw [wmul_mod, wmul_mod, wadd_mod, Nat.fib_two_mul_add_one]
        congr 1
        ring
      by_cases h2 : n % 2 = 0
      · rw [if_pos h2, hc, hd]
        have hn : 2 * (n / 2) = n := by omega
        rw [hn]
      · rw [if_neg h2, hc, hd, wadd_mod, ← Nat.fib_add_two]
        have hn : 2 * (n / 2) + 1 = n := by omega
        have hn1 : 2 * (n / 2) + 2 = n + 1 := by omega
        rw [hn, hn1]

/-- C10: at a `w`-bit unsigned wrapping type, `fibbonacci n` equals
`F n` modulo `2^w` for every index `n` representable in the type —
overflow produces the exact residue of the true Fibonacci number. -/
theorem fibbonacciWrap_mod (w n : Nat) (h : n < 2 ^ w) :
    fibbonacciWrap w n = Nat.fib n % 2 ^ w := by
  rw [fibbonacciWrap, fibWrapPair_eq]

/-- C10 witness at `w = 4`, `n = 10`: `F 10 = 55` wraps to `7`. -/
theorem fibbonacciWrap_mod_witness :
    10 < 2 ^ 4 ∧ fibbonacciWrap 4 10 = Nat.fib 10 % 2 ^ 4 :=
  ⟨by decide, fibbonacciWrap_mod 4 10 (by decide)⟩

end Quickfib
